import Mathlib

/-!
Verification of the report-generation engine of `src/task2/report.py`.

The embedding is shallow: Python strings become `List Char`, each input file
becomes the list of its lines (newline-terminated records, modelled with the
trailing newline stripped), Python exceptions become an explicit error type,
and the float average becomes an exact rational (the source applies no
rounding, so the exact value is the carried quantity).
-/

namespace Report

/-- Python strings are sequences of characters. -/
abbrev Str := List Char

/-- Errors the engine can raise: `valueError` models Python `ValueError`
(failed unpack of a split line, or `int()` on a non-integer string);
`indexError` models `IndexError` (`departments_list[0]` on an empty list). -/
inductive PyError where
  | valueError
  | indexError
deriving DecidableEq, Repr

instance {ε α : Type} [DecidableEq ε] [DecidableEq α] : DecidableEq (Except ε α) := fun x y =>
  match x, y with
  | .error e, .error e' =>
    if h : e = e' then .isTrue (congrArg Except.error h)
    else .isFalse (fun hc => h (Except.error.inj hc))
  | .ok a, .ok b =>
    if h : a = b then .isTrue (congrArg Except.ok h)
    else .isFalse (fun hc => h (Except.ok.inj hc))
  | .error _, .ok _ => .isFalse (fun hc => Except.noConfusion hc)
  | .ok _, .error _ => .isFalse (fun hc => Except.noConfusion hc)

/-- Fuel-driven worker for `pySplit`.  Scans the input left to right; on a
match of `sep` emits the accumulated (reversed) chunk and drops the rest of
the separator.  Each step consumes at least one character, so fuel equal to
the input length suffices; the fuel-0 fallback is never reached then. -/
def pySplitGo (sep : Str) : Nat → Str → Str → List Str
  | 0, rest, acc => [acc.reverse ++ rest]
  | _ + 1, [], acc => [acc.reverse]
  | fuel + 1, c :: cs, acc =>
    if sep.isPrefixOf (c :: cs) then
      acc.reverse :: pySplitGo sep fuel (cs.drop (sep.length - 1)) []
    else
      pySplitGo sep fuel cs (c :: acc)

/-- Python `line.split(separator)` for a nonempty separator: verbatim
splitting, no quoting or escaping.  (Python raises on an empty separator;
that case is modelled as the identity split and is never exercised.) -/
def pySplit (sep s : Str) : List Str :=
  match sep with
  | [] => [s]
  | _ :: _ => pySplitGo sep s.length s []

/-- A nonempty all-ASCII-digit string to its numeric value. -/
def digitsToNat (ds : Str) : Option Nat :=
  if ds = [] then none
  else if ds.all Char.isDigit then
    some (ds.foldl (fun a c => 10 * a + (c.toNat - 48)) 0)
  else none

/-- Python `int(s)`: surrounding whitespace stripped, an optional single
sign, then a nonempty run of decimal digits.  (Digit-group underscores and
non-ASCII digits, which CPython also accepts, are not modelled.) -/
def pyInt (s : Str) : Option Int :=
  match ((s.dropWhile Char.isWhitespace).reverse.dropWhile Char.isWhitespace).reverse with
  | '+' :: ds => (digitsToNat ds).map Int.ofNat
  | '-' :: ds => (digitsToNat ds).map (fun n => -(n : Int))
  | ds => (digitsToNat ds).map Int.ofNat

/-- The loop bodies of the source abort on the first bad line; `parseAll`
models running a per-line parser down the list of data lines, propagating
the first error. -/
def parseAll {γ : Type} (f : Str → Except PyError γ) : List Str → Except PyError (List γ)
  | [] => .ok []
  | l :: ls =>
    match f l with
    | .error e => .error e
    | .ok p =>
      match parseAll f ls with
      | .error e => .error e
      | .ok ps => .ok (p :: ps)

/-- One line of `generate_report_by_department`:
`_, department, *_, salary = line.split(separator)` followed by
`int(salary)`.  The unpack needs at least 3 fields; `salary` is the last
field. -/
def parseAggLine (sep line : Str) : Except PyError (Str × Int) :=
  match pySplit sep line with
  | _ :: department :: _ :: _ =>
    match ((pySplit sep line).getLast?).bind pyInt with
    | some n => .ok (department, n)
    | none => .error .valueError
  | _ => .error .valueError

/-- One line of `generate_hierarchy`:
`_, department, team, *_ = line.split(separator)`.  The unpack needs at
least 3 fields; the salary field is never touched. -/
def parseHierLine (sep line : Str) : Except PyError (Str × Str) :=
  match pySplit sep line with
  | _ :: department :: team :: _ => .ok (department, team)
  | _ => .error .valueError

/-- Insert-or-update on an association list, preserving first-insertion key
order: Python's `dict` / `defaultdict` iterates keys in insertion order. -/
def assocUpdate {β : Type} (f : Option β → β) : List (Str × β) → Str → List (Str × β)
  | [], d => [(d, f none)]
  | (d', b) :: rest, d =>
    if d' = d then (d', f (some b)) :: rest
    else (d', b) :: assocUpdate f rest d

/-- First value stored under a key. -/
def findAssoc {β : Type} : List (Str × β) → Str → Option β
  | [], _ => none
  | (d', b) :: rest, d => if d' = d then some b else findAssoc rest d

/-- `departments_dict[department].append(int(salary))` on a
`defaultdict(list)`. -/
def addPair (gs : List (Str × List Int)) (p : Str × Int) : List (Str × List Int) :=
  assocUpdate (fun ob => (ob.getD []) ++ [p.2]) gs p.1

/-- The grouping pass of `generate_report_by_department`: salaries listed
under their department, departments in first-occurrence order. -/
def groupPairs (ps : List (Str × Int)) : List (Str × List Int) :=
  ps.foldl addPair []

/-- Python `set.add`: sets are modelled as duplicate-free lists, adding only
absent elements. -/
def insertNew (ts : List Str) (t : Str) : List Str :=
  if t ∈ ts then ts else ts ++ [t]

/-- `departments_list[department].add(team)` on a `defaultdict(set)`. -/
def addTeam (gs : List (Str × List Str)) (p : Str × Str) : List (Str × List Str) :=
  assocUpdate (fun ob => insertNew (ob.getD []) p.2) gs p.1

/-- The grouping pass of `generate_hierarchy`. -/
def groupTeams (ps : List (Str × Str)) : List (Str × List Str) :=
  ps.foldl addTeam []

/-- Python `min` over a nonempty integer list (the `[]` case is never
reached: groups are built from at least one record). -/
def intListMin : List Int → Int
  | [] => 0
  | a :: l => l.foldl min a

/-- Python `max` over a nonempty integer list (the `[]` case is never
reached). -/
def intListMax : List Int → Int
  | [] => 0
  | a :: l => l.foldl max a

/-- One entry of the summary report, the source's per-department dict
`{'Название': …, 'Численность': …, 'Вилка зарплат': …, 'Средняя зарплата': …}`
with the min/max making up the range string kept as integers and the
average kept exact (the source's float division applies no rounding). -/
structure DeptSummary where
  name : Str
  count : Nat
  minSalary : Int
  maxSalary : Int
  averageSalary : ℚ
deriving DecidableEq, Repr

/-- `len / min / max / sum-over-len` of one department's salary list.  The
average `sum(salaries) / len(salaries)` is the exact rational `mkRat`
(`mkRat_eq_div` below restates it as the division it transcribes; `mkRat`
is used because Mathlib's `Rat` division is `@[irreducible]` and would not
evaluate on concrete inputs). -/
def mkSummary (d : Str) (ss : List Int) : DeptSummary :=
  { name := d
    count := ss.length
    minSalary := intListMin ss
    maxSalary := intListMax ss
    averageSalary := mkRat ss.sum ss.length }

theorem mkSummary_avg (d : Str) (ss : List Int) :
    (mkSummary d ss).averageSalary = (ss.sum : ℚ) / (ss.length : ℚ) :=
  Rat.mkRat_eq_div ss.sum ss.length

/-- The source skips line 0 unconditionally (`if line_number == 0: continue`):
the data lines are everything after the header. -/
def dataLines (lines : List Str) : List Str := lines.drop 1

/-- `generate_report_by_department`: parse every data line, then one summary
per department in first-occurrence order. -/
def generate_report_by_department (sep : Str) (lines : List Str) :
    Except PyError (List DeptSummary) :=
  match parseAll (parseAggLine sep) (dataLines lines) with
  | .error e => .error e
  | .ok ps => .ok ((groupPairs ps).map (fun g => mkSummary g.1 g.2))

/-- `generate_hierarchy`: parse every data line, then team sets grouped under
departments in first-occurrence order. -/
def generate_hierarchy (sep : Str) (lines : List Str) :
    Except PyError (List (Str × List Str)) :=
  match parseAll (parseHierLine sep) (dataLines lines) with
  | .error e => .error e
  | .ok ps => .ok (groupTeams ps)

/-- Decimal rendering of a natural number, as Python `str`. -/
def natRepr (n : Nat) : Str := (toString n).toList

/-- Decimal rendering of an integer, as Python `str`. -/
def intRepr (i : Int) : Str := (toString i).toList

/-- The `'Вилка зарплат'` value: the f-string `f'{min(salaries)} - {max(salaries)}'`. -/
def rangeStr (s : DeptSummary) : Str :=
  intRepr s.minSalary ++ (" - ").toList ++ intRepr s.maxSalary

/-- Smallest exponent `k` with `q ∣ 10 ^ k`, when one exists (i.e. when `q`
has no prime factors besides 2 and 5). -/
def decExpDigits (q : Nat) : Option Nat :=
  (List.range (q + 1)).find? (fun k => 10 ^ k % q = 0)

/-- Rendering of the average.  The source relies on Python's default
float-to-string conversion; per the spec's design note an implementation
must fix one deterministic rule, and this model renders the exact value:
a terminating decimal expansion (always with at least one fractional digit,
as Python prints floats) when the reduced denominator allows one, and
`num/den` otherwise. -/
def avgRepr (x : ℚ) : Str :=
  match decExpDigits x.den with
  | some k =>
    let m := x.num.natAbs * 10 ^ k / x.den
    let ip := m / 10 ^ k
    let fp := m % 10 ^ k
    let ds := (toString fp).toList
    let frac := if k = 0 then ['0'] else List.replicate (k - ds.length) '0' ++ ds
    (if x.num < 0 then ['-'] else []) ++ (toString ip).toList ++ ['.'] ++ frac
  | none => (toString x.num).toList ++ ['/'] ++ (toString x.den).toList

/-- The keys of every summary dict, in insertion order: the header fields of
the saved file. -/
def reportLabels : List Str :=
  [("Название").toList, ("Численность").toList, ("Вилка зарплат").toList,
   ("Средняя зарплата").toList]

/-- The values of one summary dict, in insertion order. -/
def summaryFields (s : DeptSummary) : List Str :=
  [s.name, natRepr s.count, rangeStr s, avgRepr s.averageSalary]

/-- One written line: `line = ''` then `line += f'{v}{separator}'` per value
and finally `line = line[:-1]`, which drops the last character. -/
def renderRow (fields : List Str) (sep : Str) : Str :=
  (fields.foldl (fun acc f => acc ++ f ++ sep) []).dropLast

/-- `save_department_report` viewed as the lines it writes.  On an empty
report the source evaluates `departments_list[0]`, raising `IndexError`
before anything is written. -/
def save_department_report (report : List DeptSummary) (sep : Str) :
    Except PyError (List Str) :=
  match report with
  | [] => .error .indexError
  | _ :: _ =>
    .ok (renderRow reportLabels sep :: report.map (fun s => renderRow (summaryFields s) sep))

/-- `generate_report` with menu option `'3'` (file mode).  The boolean
records whether the output file was opened: `open(output_filename, 'w+')`
truncates it, and it happens only after report generation has succeeded. -/
def runFileMode (sep : Str) (lines : List Str) : Bool × Except PyError (List Str) :=
  match generate_report_by_department sep lines with
  | .error e => (false, .error e)
  | .ok report => (true, save_department_report report sep)

/-- The department field of a line: field index 1 of the split. -/
def lineDept (sep l : Str) : Option Str := (pySplit sep l).get? 1

/-- The team field of a line: field index 2 of the split. -/
def lineTeam (sep l : Str) : Option Str := (pySplit sep l).get? 2

/-- The salary of a line: its last field, parsed as an integer. -/
def lineSalary (sep l : Str) : Option Int := ((pySplit sep l).getLast?).bind pyInt

/-- The data lines bearing a given department value. -/
def linesOfDept (sep : Str) (lines : List Str) (d : Str) : List Str :=
  (dataLines lines).filter (fun l => decide (lineDept sep l = some d))

/-- The salary values of the data lines bearing a given department value. -/
def salariesOfDept (sep : Str) (lines : List Str) (d : Str) : List Int :=
  (linesOfDept sep lines d).filterMap (lineSalary sep)

/-- The distinct elements of a list in order of first occurrence. -/
def firstOccurrences (ds : List Str) : List Str :=
  ds.foldl (fun ks d => if d ∈ ks then ks else ks ++ [d]) []

/-- The spec's description of a written line: the fields joined by the
separator (a second rendering definition, to be compared with `renderRow`). -/
def specJoin (sep : Str) : List Str → Str
  | [] => []
  | [f] => f
  | f :: g :: rest => f ++ sep ++ specJoin sep (g :: rest)

/-- A line is malformed for aggregation when it does not split into at least
3 fields or its last field is not an integer. -/
def aggMalformed (sep l : Str) : Prop :=
  (pySplit sep l).length < 3 ∨ lineSalary sep l = none

instance (sep l : Str) : Decidable (aggMalformed sep l) := by
  unfold aggMalformed; infer_instance

/-! ### Splitting lemmas -/

theorem pySplitGo_fuel (sep : Str) :
    ∀ (n : Nat) (f : Str), f.length = n →
      ∀ (fuel₁ fuel₂ : Nat) (acc : Str), f.length ≤ fuel₁ → f.length ≤ fuel₂ →
        pySplitGo sep fuel₁ f acc = pySplitGo sep fuel₂ f acc := by
  intro n
  induction n using Nat.strong_induction_on with
  | _ n ih =>
    intro f hf fuel₁ fuel₂ acc h₁ h₂
    cases f with
    | nil => cases fuel₁ <;> cases fuel₂ <;> simp [pySplitGo]
    | cons c cs =>
      cases fuel₁ with
      | zero => simp at h₁
      | succ m₁ =>
        cases fuel₂ with
        | zero => simp at h₂
        | succ m₂ =>
          simp only [pySplitGo]
          by_cases hp : sep.isPrefixOf (c :: cs)
          · simp only [if_pos hp]
            congr 1
            have hd : (cs.drop (sep.length - 1)).length ≤ cs.length := by
              simp [List.length_drop]
            exact ih (cs.drop (sep.length - 1)).length (by simp at hf ⊢; omega)
              _ rfl m₁ m₂ [] (by simp at h₁; omega) (by simp at h₂; omega)
          · simp only [if_neg hp]
            exact ih cs.length (by simp at hf; omega) cs rfl m₁ m₂ (c :: acc)
              (by simp at h₁; omega) (by simp at h₂; omega)

theorem pySplitGo_single_no (c : Char) (f : Str) (hc : c ∉ f) :
    ∀ (fuel : Nat) (acc : Str), f.length ≤ fuel →
      pySplitGo [c] fuel f acc = [acc.reverse ++ f] := by
  induction f with
  | nil => intro fuel acc _; cases fuel <;> simp [pySplitGo]
  | cons x xs ih =>
    intro fuel acc h
    simp only [List.mem_cons, not_or] at hc
    cases fuel with
    | zero => simp at h
    | succ m =>
      simp only [pySplitGo]
      have hp : ([c].isPrefixOf (x :: xs)) = false := by
        simp [List.isPrefixOf, hc.1]
      simp only [hp, Bool.false_eq_true, if_false]
      rw [ih hc.2 m (x :: acc) (by simp at h; omega)]
      simp

theorem pySplitGo_single_hit (c : Char) (f : Str) (hc : c ∉ f) (rest : Str) :
    ∀ (fuel : Nat) (acc : Str), (f ++ c :: rest).length ≤ fuel →
      pySplitGo [c] fuel (f ++ c :: rest) acc =
        (acc.reverse ++ f) :: pySplitGo [c] rest.length rest [] := by
  induction f with
  | nil =>
    intro fuel acc h
    cases fuel with
    | zero => simp at h
    | succ m =>
      simp only [List.nil_append, pySplitGo]
      have hp : ([c].isPrefixOf (c :: rest)) = true := by simp [List.isPrefixOf]
      simp only [hp, if_true]
      have hd : rest.drop (([c] : Str).length - 1) = rest := by simp
      rw [hd, pySplitGo_fuel [c] rest.length rest rfl m rest.length []
        (by simp at h ⊢; omega) (by simp)]
      simp
  | cons x xs ih =>
    intro fuel acc h
    simp only [List.mem_cons, not_or] at hc
    cases fuel with
    | zero => simp at h
    | succ m =>
      simp only [List.cons_append, pySplitGo]
      have hp : ([c].isPrefixOf (x :: (xs ++ c :: rest))) = false := by
        simp [List.isPrefixOf, hc.1]
      simp only [List.append_eq, hp, Bool.false_eq_true, if_false]
      rw [ih hc.2 m (x :: acc) (by simp at h ⊢; omega)]
      simp

theorem pySplit_single_specJoin (c : Char) (fs : List Str) (hne : fs ≠ [])
    (hc : ∀ f ∈ fs, c ∉ f) : pySplit [c] (specJoin [c] fs) = fs := by
  induction fs with
  | nil => cases hne rfl
  | cons f gs ih =>
    cases gs with
    | nil =>
      have hs : specJoin [c] [f] = f := rfl
      rw [hs]
      show pySplitGo [c] f.length f [] = [f]
      rw [pySplitGo_single_no c f (hc f (by simp)) f.length [] le_rfl]
      simp
    | cons g rest =>
      have h1 : specJoin [c] (f :: g :: rest) = f ++ c :: specJoin [c] (g :: rest) := by
        simp [specJoin]
      rw [h1]
      show pySplitGo [c] _ (f ++ c :: specJoin [c] (g :: rest)) [] = _
      rw [pySplitGo_single_hit c f (hc f (by simp)) (specJoin [c] (g :: rest))
        (f ++ c :: specJoin [c] (g :: rest)).length [] le_rfl]
      have h2 : pySplitGo [c] (specJoin [c] (g :: rest)).length (specJoin [c] (g :: rest)) [] =
          pySplit [c] (specJoin [c] (g :: rest)) := rfl
      rw [h2, ih (by simp) (fun f hf => hc f (by simp [hf]))]
      simp

/-! ### Rendering lemmas -/

theorem foldl_render (sep : Str) :
    ∀ (fields : List Str) (acc : Str),
      fields.foldl (fun a f => a ++ f ++ sep) acc =
        acc ++ fields.foldl (fun a f => a ++ f ++ sep) [] := by
  intro fields
  induction fields with
  | nil => intro acc; simp
  | cons f gs ih =>
    intro acc
    simp only [List.foldl_cons]
    rw [ih (acc ++ f ++ sep), ih ([] ++ f ++ sep)]
    simp [List.append_assoc]

theorem concat_specJoin (sep : Str) (fields : List Str) (hne : fields ≠ []) :
    fields.foldl (fun a f => a ++ f ++ sep) [] = specJoin sep fields ++ sep := by
  induction fields with
  | nil => cases hne rfl
  | cons f gs ih =>
    cases gs with
    | nil => simp [specJoin]
    | cons g rest =>
      rw [List.foldl_cons]
      rw [foldl_render sep (g :: rest) ([] ++ f ++ sep), ih (by simp)]
      simp [specJoin, List.append_assoc]

theorem renderRow_single (c : Char) (fields : List Str) (hne : fields ≠ []) :
    renderRow fields [c] = specJoin [c] fields := by
  unfold renderRow
  rw [concat_specJoin [c] fields hne]
  simp

/-! ### Association-list lemmas -/

theorem assocUpdate_keys {β : Type} (f : Option β → β) :
    ∀ (gs : List (Str × β)) (d : Str),
      (assocUpdate f gs d).map Prod.fst =
        if d ∈ gs.map Prod.fst then gs.map Prod.fst else gs.map Prod.fst ++ [d] := by
  intro gs
  induction gs with
  | nil =>
    intro d
    rw [if_neg (by simp)]
    rfl
  | cons g rest ih =>
    intro d
    obtain ⟨d', b⟩ := g
    by_cases hd : d' = d
    · subst hd
      show ((if d' = d' then (d', f (some b)) :: rest else (d', b) :: assocUpdate f rest d').map Prod.fst) = _
      rw [if_pos rfl]
      have hc : d' ∈ ((d', b) :: rest).map Prod.fst := by
        rw [List.map_cons]; exact List.mem_cons_self _ _
      rw [if_pos hc]
      simp only [List.map_cons]
    · show ((if d' = d then (d', f (some b)) :: rest else (d', b) :: assocUpdate f rest d).map Prod.fst) = _
      rw [if_neg hd, List.map_cons, ih d]
      have hne : (d ∈ ((d', b) :: rest).map Prod.fst) ↔ (d ∈ rest.map Prod.fst) := by
        rw [List.map_cons]
        constructor
        · intro h
          rcases List.mem_cons.mp h with h | h
          · exact absurd h.symm hd
          · exact h
        · exact fun h => List.mem_cons_of_mem _ h
      by_cases hm : d ∈ rest.map Prod.fst
      · rw [if_pos hm, if_pos (hne.mpr hm), List.map_cons]
      · rw [if_neg hm, if_neg (fun hh => hm (hne.mp hh)), List.map_cons, List.cons_append]

theorem assocUpdate_find {β : Type} (f : Option β → β) :
    ∀ (gs : List (Str × β)) (d d' : Str),
      findAssoc (assocUpdate f gs d) d' =
        if d = d' then some (f (findAssoc gs d)) else findAssoc gs d' := by
  intro gs
  induction gs with
  | nil =>
    intro d d'
    by_cases h : d = d' <;> simp [assocUpdate, findAssoc, h]
  | cons g rest ih =>
    intro d d'
    obtain ⟨e, b⟩ := g
    by_cases h1 : e = d
    · subst h1
      by_cases h2 : e = d' <;> simp [assocUpdate, findAssoc, h2]
    · by_cases h2 : e = d'
      · subst h2
        have hne : ¬ d = e := fun hdd => h1 hdd.symm
        simp [assocUpdate, findAssoc, h1, hne]
      · simp [assocUpdate, findAssoc, h1, h2, ih d d']

/-- The shared shape of the two grouping loop bodies. -/
def assocStep {α β : Type} (F : Option β → α → β)
    (gs : List (Str × β)) (p : Str × α) : List (Str × β) :=
  assocUpdate (fun ob => F ob p.2) gs p.1

theorem groupPairs_eq (ps : List (Str × Int)) :
    groupPairs ps = ps.foldl (assocStep (fun ob s => (ob.getD []) ++ [s])) [] := rfl

theorem groupTeams_eq (ps : List (Str × Str)) :
    groupTeams ps = ps.foldl (assocStep (fun ob t => insertNew (ob.getD []) t)) [] := rfl

theorem assocFold_keys {α β : Type} (F : Option β → α → β) :
    ∀ (ps : List (Str × α)) (gs : List (Str × β)),
      ((ps.foldl (assocStep F) gs).map Prod.fst) =
        (ps.map Prod.fst).foldl (fun ks d => if d ∈ ks then ks else ks ++ [d])
          (gs.map Prod.fst) := by
  intro ps
  induction ps with
  | nil => intro gs; simp
  | cons p ps ih =>
    intro gs
    simp only [List.foldl_cons, List.map_cons]
    rw [ih]
    congr 1
    exact assocUpdate_keys _ gs p.1

theorem assocFold_find {α β : Type} (F : Option β → α → β) :
    ∀ (ps : List (Str × α)) (gs : List (Str × β)) (d : Str),
      findAssoc (ps.foldl (assocStep F) gs) d =
        ((ps.filter (fun p => decide (p.1 = d))).map Prod.snd).foldl
          (fun ob a => some (F ob a)) (findAssoc gs d) := by
  intro ps
  induction ps with
  | nil => intro gs d; simp
  | cons p ps ih =>
    intro gs d
    simp only [List.foldl_cons]
    rw [ih]
    by_cases hp : p.1 = d
    · have hf : (p :: ps).filter (fun q => decide (q.1 = d)) =
          p :: ps.filter (fun q => decide (q.1 = d)) := by
        rw [List.filter_cons, if_pos (by simp [hp])]
      rw [hf, List.map_cons, List.foldl_cons]
      congr 1
      show findAssoc (assocUpdate (fun ob => F ob p.2) gs p.1) d = _
      rw [assocUpdate_find, if_pos hp, hp]
    · have hf : (p :: ps).filter (fun q => decide (q.1 = d)) =
          ps.filter (fun q => decide (q.1 = d)) := by
        rw [List.filter_cons, if_neg (by simp [hp])]
      rw [hf]
      congr 1
      show findAssoc (assocUpdate (fun ob => F ob p.2) gs p.1) d = _
      rw [assocUpdate_find, if_neg hp]

theorem foldl_appendOpt :
    ∀ (l : List Int) (ob : Option (List Int)),
      l.foldl (fun ob a => some ((ob.getD []) ++ [a])) ob =
        match ob with
        | some xs => some (xs ++ l)
        | none => if l = [] then none else some l := by
  intro l
  induction l with
  | nil => intro ob; cases ob <;> simp
  | cons a l ih =>
    intro ob
    simp only [List.foldl_cons]
    rw [ih]
    cases ob with
    | some xs => simp
    | none => simp

theorem foldl_insertOpt :
    ∀ (l : List Str) (ob : Option (List Str)),
      l.foldl (fun ob t => some (insertNew (ob.getD []) t)) ob =
        match ob with
        | some ts => some (l.foldl insertNew ts)
        | none => if l = [] then none else some (l.foldl insertNew []) := by
  intro l
  induction l with
  | nil => intro ob; cases ob <;> simp
  | cons t l ih =>
    intro ob
    simp only [List.foldl_cons]
    rw [ih]
    cases ob with
    | some ts => simp
    | none => simp [insertNew]

theorem findGroup_groupPairs (ps : List (Str × Int)) (d : Str) :
    findAssoc (groupPairs ps) d =
      if ((ps.filter (fun p => decide (p.1 = d))).map Prod.snd) = [] then none
      else some ((ps.filter (fun p => decide (p.1 = d))).map Prod.snd) := by
  rw [groupPairs_eq, assocFold_find]
  have h0 : findAssoc ([] : List (Str × List Int)) d = none := rfl
  rw [h0]
  exact foldl_appendOpt _ none

theorem findTeams_groupTeams (ps : List (Str × Str)) (d : Str) :
    findAssoc (groupTeams ps) d =
      if ((ps.filter (fun p => decide (p.1 = d))).map Prod.snd) = [] then none
      else some (((ps.filter (fun p => decide (p.1 = d))).map Prod.snd).foldl insertNew []) := by
  rw [groupTeams_eq, assocFold_find]
  have h0 : findAssoc ([] : List (Str × List Str)) d = none := rfl
  rw [h0]
  exact foldl_insertOpt _ none

theorem groupPairs_keys (ps : List (Str × Int)) :
    (groupPairs ps).map Prod.fst = firstOccurrences (ps.map Prod.fst) := by
  rw [groupPairs_eq, assocFold_keys]
  rfl

theorem groupTeams_keys (ps : List (Str × Str)) :
    (groupTeams ps).map Prod.fst = firstOccurrences (ps.map Prod.fst) := by
  rw [groupTeams_eq, assocFold_keys]
  rfl

/-! ### First-occurrence list lemmas -/

theorem foldl_ins_mem :
    ∀ (ds ks : List Str) (d : Str),
      d ∈ ds.foldl (fun ks d => if d ∈ ks then ks else ks ++ [d]) ks ↔ d ∈ ks ∨ d ∈ ds := by
  intro ds
  induction ds with
  | nil => intro ks d; simp
  | cons e ds ih =>
    intro ks d
    simp only [List.foldl_cons]
    rw [ih]
    constructor
    · rintro (hk | hd)
      · by_cases he : e ∈ ks
        · rw [if_pos he] at hk
          exact Or.inl hk
        · rw [if_neg he] at hk
          rcases List.mem_append.mp hk with hk | hk
          · exact Or.inl hk
          · have hde : d = e := by simpa using hk
            exact Or.inr (List.mem_cons.mpr (Or.inl hde))
      · exact Or.inr (List.mem_cons_of_mem e hd)
    · rintro (hk | hd)
      · by_cases he : e ∈ ks
        · rw [if_pos he]
          exact Or.inl hk
        · rw [if_neg he]
          exact Or.inl (List.mem_append.mpr (Or.inl hk))
      · rcases List.mem_cons.mp hd with hde | hd2
        · by_cases he : e ∈ ks
          · rw [if_pos he]
            exact Or.inl (by rw [hde]; exact he)
          · rw [if_neg he]
            exact Or.inl (List.mem_append.mpr (Or.inr (by simp [hde])))
        · exact Or.inr hd2

theorem foldl_ins_nodup :
    ∀ (ds ks : List Str), ks.Nodup →
      (ds.foldl (fun ks d => if d ∈ ks then ks else ks ++ [d]) ks).Nodup := by
  intro ds
  induction ds with
  | nil => intro ks h; simpa using h
  | cons e ds ih =>
    intro ks h
    simp only [List.foldl_cons]
    by_cases he : e ∈ ks
    · simpa [he] using ih ks h
    · have : (ks ++ [e]).Nodup := by simp [List.nodup_append, h, he]
      simpa [he] using ih (ks ++ [e]) this

theorem firstOccurrences_mem (ds : List Str) (d : Str) :
    d ∈ firstOccurrences ds ↔ d ∈ ds := by
  unfold firstOccurrences
  rw [foldl_ins_mem]
  simp

theorem firstOccurrences_nodup (ds : List Str) : (firstOccurrences ds).Nodup :=
  foldl_ins_nodup ds [] (by simp)

theorem findAssoc_mem {β : Type} :
    ∀ (gs : List (Str × β)) (d : Str) (b : β), findAssoc gs d = some b → (d, b) ∈ gs := by
  intro gs
  induction gs with
  | nil => intro d b h; simp [findAssoc] at h
  | cons g rest ih =>
    intro d b h
    obtain ⟨e, v⟩ := g
    by_cases he : e = d
    · subst he
      have h' : (if e = e then some v else findAssoc rest e) = some b := h
      rw [if_pos rfl] at h'
      have hv : v = b := Option.some.inj h'
      subst hv
      exact List.mem_cons_self _ _
    · have h' : (if e = d then some v else findAssoc rest d) = some b := h
      rw [if_neg he] at h'
      exact List.mem_cons_of_mem _ (ih d b h')

theorem findAssoc_of_mem_nodup {β : Type} :
    ∀ (gs : List (Str × β)) (d : Str) (b : β),
      (d, b) ∈ gs → (gs.map Prod.fst).Nodup → findAssoc gs d = some b := by
  intro gs
  induction gs with
  | nil => intro d b h _; simp at h
  | cons g rest ih =>
    intro d b h hnd
    obtain ⟨e, v⟩ := g
    simp only [List.map_cons, List.nodup_cons] at hnd
    rcases List.mem_cons.mp h with h1 | h1
    · cases h1
      show (if d = d then some b else findAssoc rest d) = some b
      rw [if_pos rfl]
    · have he : ¬ e = d := by
        intro hed
        subst hed
        exact hnd.1 (List.mem_map.mpr ⟨(e, b), h1, rfl⟩)
      show (if e = d then some v else findAssoc rest d) = some b
      rw [if_neg he]
      exact ih d b h1 hnd.2

theorem mem_keys_findAssoc {β : Type} :
    ∀ (gs : List (Str × β)) (d : Str), d ∈ gs.map Prod.fst ↔ ∃ b, findAssoc gs d = some b := by
  intro gs
  induction gs with
  | nil => intro d; simp [findAssoc]
  | cons g rest ih =>
    intro d
    obtain ⟨e, v⟩ := g
    by_cases he : e = d
    · subst he
      constructor
      · intro _
        refine ⟨v, ?_⟩
        show (if e = e then some v else findAssoc rest e) = some v
        rw [if_pos rfl]
      · intro _
        rw [List.map_cons]
        exact List.mem_cons_self _ _
    · have hne : ¬ d = e := fun hdd => he hdd.symm
      rw [List.map_cons]
      constructor
      · intro hm
        rcases List.mem_cons.mp hm with h | h
        · exact absurd h hne
        · obtain ⟨b, hb⟩ := (ih d).mp h
          refine ⟨b, ?_⟩
          show (if e = d then some v else findAssoc rest d) = some b
          rw [if_neg he]
          exact hb
      · rintro ⟨b, hb⟩
        have hb' : findAssoc rest d = some b := by
          have h' : (if e = d then some v else findAssoc rest d) = some b := hb
          rw [if_neg he] at h'
          exact h'
        exact List.mem_cons_of_mem _ ((ih d).mpr ⟨b, hb'⟩)

theorem foldl_insertNew_mem (l ts : List Str) (t : Str) :
    t ∈ l.foldl insertNew ts ↔ t ∈ ts ∨ t ∈ l :=
  foldl_ins_mem l ts t

theorem foldl_insertNew_nodup (l ts : List Str) (h : ts.Nodup) :
    (l.foldl insertNew ts).Nodup :=
  foldl_ins_nodup l ts h

/-! ### Parsing lemmas -/

theorem parseAll_ok_forall₂ {γ : Type} (f : Str → Except PyError γ) :
    ∀ (ls : List Str) (ps : List γ), parseAll f ls = .ok ps →
      List.Forall₂ (fun l p => f l = .ok p) ls ps := by
  intro ls
  induction ls with
  | nil =>
    intro ps h
    have h' : Except.ok (ε := PyError) ([] : List γ) = .ok ps := h
    cases h'
    exact List.Forall₂.nil
  | cons l ls ih =>
    intro ps h
    rw [parseAll] at h
    cases hf : f l with
    | error e =>
      rw [hf] at h
      cases h
    | ok p =>
      rw [hf] at h
      cases hps : parseAll f ls with
      | error e =>
        rw [hps] at h
        cases h
      | ok qs =>
        rw [hps] at h
        cases h
        exact List.Forall₂.cons hf (ih qs hps)

theorem parseAll_ok_of_forall {γ : Type} (f : Str → Except PyError γ) :
    ∀ (ls : List Str), (∀ l ∈ ls, ∃ p, f l = .ok p) → ∃ ps, parseAll f ls = .ok ps := by
  intro ls
  induction ls with
  | nil => intro _; exact ⟨[], rfl⟩
  | cons l ls ih =>
    intro h
    obtain ⟨p, hp⟩ := h l (List.mem_cons_self _ _)
    obtain ⟨ps, hps⟩ := ih (fun x hx => h x (List.mem_cons_of_mem _ hx))
    exact ⟨p :: ps, by rw [parseAll, hp, hps]⟩

theorem parseAggLine_ok_facts (sep l : Str) (d : Str) (n : Int)
    (h : parseAggLine sep l = .ok (d, n)) :
    lineDept sep l = some d ∧ lineSalary sep l = some n ∧ 3 ≤ (pySplit sep l).length := by
  unfold parseAggLine at h
  split at h
  · split at h
    · rename_i nn hbind
      cases h
      refine ⟨?_, hbind, ?_⟩
      · rename_i heq
        unfold lineDept
        rw [heq]
        rfl
      · rename_i heq
        rw [heq]
        simp
    · cases h
  · cases h

theorem parseAggLine_error_iff (sep l : Str) :
    parseAggLine sep l = .error .valueError ↔ aggMalformed sep l := by
  constructor
  · intro h
    unfold parseAggLine at h
    split at h
    · split at h
      · cases h
      · rename_i hbind
        exact Or.inr hbind
    · rename_i hshape
      left
      rcases hs : pySplit sep l with _ | ⟨a, _ | ⟨b, _ | ⟨c, r⟩⟩⟩
      · simp
      · simp
      · simp
      · exact ((hshape a b c r hs).elim)
  · intro h
    rcases h with h | h
    · unfold parseAggLine
      split
      · rename_i heq
        rw [heq] at h
        simp at h
        omega
      · rfl
    · unfold parseAggLine
      split
      · split
        · rename_i nn hbind
          unfold lineSalary at h
          rw [h] at hbind
          cases hbind
        · rfl
      · rfl

theorem parseAggLine_error_shape (sep l : Str) (e : PyError)
    (h : parseAggLine sep l = .error e) : e = .valueError := by
  unfold parseAggLine at h
  split at h
  · split at h
    · cases h
    · exact (Except.error.inj h).symm
  · exact (Except.error.inj h).symm

theorem parseHierLine_ok_facts (sep l : Str) (d t : Str)
    (h : parseHierLine sep l = .ok (d, t)) :
    lineDept sep l = some d ∧ lineTeam sep l = some t ∧ 3 ≤ (pySplit sep l).length := by
  unfold parseHierLine at h
  split at h
  · rename_i heq
    cases h
    refine ⟨?_, ?_, ?_⟩
    · unfold lineDept
      rw [heq]
      rfl
    · unfold lineTeam
      rw [heq]
      rfl
    · rw [heq]
      simp
  · cases h

theorem parseHierLine_ok_of_len (sep l : Str) (h : 3 ≤ (pySplit sep l).length) :
    ∃ p, parseHierLine sep l = .ok p := by
  unfold parseHierLine
  split
  · exact ⟨_, rfl⟩
  · rename_i hshape
    rcases hs : pySplit sep l with _ | ⟨a, _ | ⟨b, _ | ⟨c, r⟩⟩⟩ <;> rw [hs] at h
    · simp at h
    · simp at h
    · simp at h
    · exact ((hshape a b c r hs).elim)

theorem parseAll_agg_error (sep : Str) :
    ∀ (ls : List Str), (∃ l ∈ ls, parseAggLine sep l = .error .valueError) →
      parseAll (parseAggLine sep) ls = .error .valueError := by
  intro ls
  induction ls with
  | nil =>
    rintro ⟨l, hl, _⟩
    simp at hl
  | cons a ls ih =>
    rintro ⟨l, hl, he⟩
    rw [parseAll]
    cases hf : parseAggLine sep a with
    | error e =>
      rw [parseAggLine_error_shape sep a e hf]
    | ok p =>
      rcases List.mem_cons.mp hl with h1 | h1
      · rw [h1] at he
        rw [he] at hf
        cases hf
      · rw [ih ⟨l, h1, he⟩]

/-! ### Bridges between parsed pairs and raw lines -/

theorem forall₂_agg_filterMap (sep : Str) :
    ∀ (ls : List Str) (ps : List (Str × Int)),
      List.Forall₂ (fun l p => parseAggLine sep l = .ok p) ls ps →
        ls.filterMap (lineDept sep) = ps.map Prod.fst := by
  intro ls ps H
  induction H with
  | nil => rfl
  | @cons l p ls' ps' hlp htl ih =>
    obtain ⟨hd1, _, _⟩ := parseAggLine_ok_facts sep l p.1 p.2 hlp
    simp only [List.filterMap_cons, hd1, List.map_cons]
    rw [ih]

theorem forall₂_agg_filter (sep : Str) (d : Str) :
    ∀ (ls : List Str) (ps : List (Str × Int)),
      List.Forall₂ (fun l p => parseAggLine sep l = .ok p) ls ps →
        (ls.filter (fun l => decide (lineDept sep l = some d))).filterMap (lineSalary sep) =
            (ps.filter (fun p => decide (p.1 = d))).map Prod.snd
          ∧ (ls.filter (fun l => decide (lineDept sep l = some d))).length =
              (ps.filter (fun p => decide (p.1 = d))).length := by
  intro ls ps H
  induction H with
  | nil => exact ⟨rfl, rfl⟩
  | @cons l p ls' ps' hlp htl ih =>
    obtain ⟨hd1, hd2, _⟩ := parseAggLine_ok_facts sep l p.1 p.2 hlp
    by_cases hpd : p.1 = d
    · have hld : lineDept sep l = some d := by rw [hd1, hpd]
      have hf1 : (l :: ls').filter (fun x => decide (lineDept sep x = some d)) =
          l :: ls'.filter (fun x => decide (lineDept sep x = some d)) := by
        rw [List.filter_cons, if_pos (by simp [hld])]
      have hf2 : (p :: ps').filter (fun q => decide (q.1 = d)) =
          p :: ps'.filter (fun q => decide (q.1 = d)) := by
        rw [List.filter_cons, if_pos (by simp [hpd])]
      rw [hf1, hf2]
      constructor
      · simp only [List.filterMap_cons, hd2, List.map_cons]
        rw [ih.1]
      · simp only [List.length_cons]
        rw [ih.2]
    · have hld : ¬ (lineDept sep l = some d) := by
        rw [hd1]
        intro hc
        exact hpd (Option.some.inj hc)
      have hf1 : (l :: ls').filter (fun x => decide (lineDept sep x = some d)) =
          ls'.filter (fun x => decide (lineDept sep x = some d)) := by
        rw [List.filter_cons, if_neg (by simp [hld])]
      have hf2 : (p :: ps').filter (fun q => decide (q.1 = d)) =
          ps'.filter (fun q => decide (q.1 = d)) := by
        rw [List.filter_cons, if_neg (by simp [hpd])]
      rw [hf1, hf2]
      exact ih

theorem forall₂_hier_facts (sep : Str) :
    ∀ (ls : List Str) (ps : List (Str × Str)),
      List.Forall₂ (fun l p => parseHierLine sep l = .ok p) ls ps →
        ls.filterMap (lineDept sep) = ps.map Prod.fst
        ∧ ∀ (d t : Str), (d, t) ∈ ps ↔
            ∃ l ∈ ls, lineDept sep l = some d ∧ lineTeam sep l = some t := by
  intro ls ps H
  induction H with
  | nil =>
    refine ⟨rfl, ?_⟩
    intro d t
    simp
  | @cons l p ls' ps' hlp htl ih =>
    obtain ⟨hd1, ht1, _⟩ := parseHierLine_ok_facts sep l p.1 p.2 hlp
    refine ⟨?_, ?_⟩
    · simp only [List.filterMap_cons, hd1, List.map_cons]
      rw [ih.1]
    · intro d t
      constructor
      · intro hm
        rcases List.mem_cons.mp hm with h1 | h1
        · have h1' : p = (d, t) := h1.symm
          subst h1'
          exact ⟨l, List.mem_cons_self _ _, hd1, ht1⟩
        · obtain ⟨x, hx, hxd, hxt⟩ := (ih.2 d t).mp h1
          exact ⟨x, List.mem_cons_of_mem _ hx, hxd, hxt⟩
      · rintro ⟨x, hx, hxd, hxt⟩
        rcases List.mem_cons.mp hx with h1 | h1
        · subst h1
          rw [hd1] at hxd
          rw [ht1] at hxt
          have h1 : p.1 = d := Option.some.inj hxd
          have h2 : p.2 = t := Option.some.inj hxt
          exact List.mem_cons.mpr (Or.inl (by rw [← h1, ← h2]))
        · exact List.mem_cons_of_mem _ ((ih.2 d t).mpr ⟨x, h1, hxd, hxt⟩)

/-! ### Unfolding the generators -/

theorem generate_report_ok_elim (sep : Str) (lines : List Str) (report : List DeptSummary)
    (h : generate_report_by_department sep lines = .ok report) :
    ∃ ps, parseAll (parseAggLine sep) (dataLines lines) = .ok ps ∧
      report = (groupPairs ps).map (fun g => mkSummary g.1 g.2) := by
  unfold generate_report_by_department at h
  cases hp : parseAll (parseAggLine sep) (dataLines lines) with
  | error e =>
    rw [hp] at h
    cases h
  | ok ps =>
    rw [hp] at h
    exact ⟨ps, rfl, (Except.ok.inj h).symm⟩

theorem generate_hierarchy_ok_elim (sep : Str) (lines : List Str) (h : List (Str × List Str))
    (hok : generate_hierarchy sep lines = .ok h) :
    ∃ ps, parseAll (parseHierLine sep) (dataLines lines) = .ok ps ∧ h = groupTeams ps := by
  unfold generate_hierarchy at hok
  cases hp : parseAll (parseHierLine sep) (dataLines lines) with
  | error e =>
    rw [hp] at hok
    cases hok
  | ok ps =>
    rw [hp] at hok
    exact ⟨ps, rfl, (Except.ok.inj hok).symm⟩

/-! ### Minimum, maximum and average lemmas -/

theorem foldl_min_le : ∀ (l : List Int) (a : Int),
    l.foldl min a ≤ a ∧ ∀ x ∈ l, l.foldl min a ≤ x := by
  intro l
  induction l with
  | nil => intro a; exact ⟨le_refl a, by simp⟩
  | cons b l ih =>
    intro a
    simp only [List.foldl_cons]
    refine ⟨le_trans (ih (min a b)).1 (min_le_left a b), ?_⟩
    intro x hx
    rcases List.mem_cons.mp hx with h | h
    · rw [h]
      exact le_trans (ih (min a b)).1 (min_le_right a b)
    · exact (ih (min a b)).2 x h

theorem foldl_min_mem : ∀ (l : List Int) (a : Int),
    l.foldl min a = a ∨ l.foldl min a ∈ l := by
  intro l
  induction l with
  | nil => intro a; exact Or.inl rfl
  | cons b l ih =>
    intro a
    simp only [List.foldl_cons]
    rcases ih (min a b) with h | h
    · rcases min_choice a b with hm | hm
      · exact Or.inl (h.trans hm)
      · exact Or.inr (List.mem_cons.mpr (Or.inl (h.trans hm)))
    · exact Or.inr (List.mem_cons_of_mem _ h)

theorem foldl_max_ge : ∀ (l : List Int) (a : Int),
    a ≤ l.foldl max a ∧ ∀ x ∈ l, x ≤ l.foldl max a := by
  intro l
  induction l with
  | nil => intro a; exact ⟨le_refl a, by simp⟩
  | cons b l ih =>
    intro a
    simp only [List.foldl_cons]
    refine ⟨le_trans (le_max_left a b) (ih (max a b)).1, ?_⟩
    intro x hx
    rcases List.mem_cons.mp hx with h | h
    · rw [h]
      exact le_trans (le_max_right a b) (ih (max a b)).1
    · exact (ih (max a b)).2 x h

theorem foldl_max_mem : ∀ (l : List Int) (a : Int),
    l.foldl max a = a ∨ l.foldl max a ∈ l := by
  intro l
  induction l with
  | nil => intro a; exact Or.inl rfl
  | cons b l ih =>
    intro a
    simp only [List.foldl_cons]
    rcases ih (max a b) with h | h
    · rcases max_choice a b with hm | hm
      · exact Or.inl (h.trans hm)
      · exact Or.inr (List.mem_cons.mpr (Or.inl (h.trans hm)))
    · exact Or.inr (List.mem_cons_of_mem _ h)

theorem intListMin_mem (ss : List Int) (h : ss ≠ []) : intListMin ss ∈ ss := by
  cases ss with
  | nil => cases h rfl
  | cons a l =>
    show l.foldl min a ∈ a :: l
    rcases foldl_min_mem l a with h1 | h1
    · rw [h1]
      exact List.mem_cons_self _ _
    · exact List.mem_cons_of_mem _ h1

theorem intListMin_le (ss : List Int) : ∀ x ∈ ss, intListMin ss ≤ x := by
  cases ss with
  | nil => simp
  | cons a l =>
    intro x hx
    show l.foldl min a ≤ x
    rcases List.mem_cons.mp hx with h | h
    · exact h ▸ (foldl_min_le l a).1
    · exact (foldl_min_le l a).2 x h

theorem intListMax_mem (ss : List Int) (h : ss ≠ []) : intListMax ss ∈ ss := by
  cases ss with
  | nil => cases h rfl
  | cons a l =>
    show l.foldl max a ∈ a :: l
    rcases foldl_max_mem l a with h1 | h1
    · rw [h1]
      exact List.mem_cons_self _ _
    · exact List.mem_cons_of_mem _ h1

theorem intListMax_ge (ss : List Int) : ∀ x ∈ ss, x ≤ intListMax ss := by
  cases ss with
  | nil => simp
  | cons a l =>
    intro x hx
    show x ≤ l.foldl max a
    rcases List.mem_cons.mp hx with h | h
    · exact h ▸ (foldl_max_ge l a).1
    · exact (foldl_max_ge l a).2 x h

theorem length_mul_le_sum : ∀ (l : List Int) (m : Int),
    (∀ x ∈ l, m ≤ x) → (l.length : Int) * m ≤ l.sum := by
  intro l
  induction l with
  | nil => intro m _; simp
  | cons a l ih =>
    intro m h
    have h1 := ih m (fun x hx => h x (List.mem_cons_of_mem _ hx))
    have h2 := h a (List.mem_cons_self _ _)
    simp only [List.length_cons, List.sum_cons]
    push_cast
    linarith

theorem sum_le_length_mul : ∀ (l : List Int) (m : Int),
    (∀ x ∈ l, x ≤ m) → l.sum ≤ (l.length : Int) * m := by
  intro l
  induction l with
  | nil => intro m _; simp
  | cons a l ih =>
    intro m h
    have h1 := ih m (fun x hx => h x (List.mem_cons_of_mem _ hx))
    have h2 := h a (List.mem_cons_self _ _)
    simp only [List.length_cons, List.sum_cons]
    push_cast
    linarith

theorem avg_between (ss : List Int) (h : ss ≠ []) :
    ((intListMin ss : ℚ)) ≤ (ss.sum : ℚ) / (ss.length : ℚ)
    ∧ (ss.sum : ℚ) / (ss.length : ℚ) ≤ ((intListMax ss : ℚ)) := by
  have hlen : 0 < (ss.length : ℚ) := by
    have hp : 0 < ss.length := List.length_pos.mpr h
    exact_mod_cast hp
  have h1 : (ss.length : Int) * intListMin ss ≤ ss.sum :=
    length_mul_le_sum ss _ (intListMin_le ss)
  have h2 : ss.sum ≤ (ss.length : Int) * intListMax ss :=
    sum_le_length_mul ss _ (intListMax_ge ss)
  constructor
  · rw [le_div_iff₀ hlen]
    have hq : ((ss.length : Int) : ℚ) * ((intListMin ss : Int) : ℚ) ≤ ((ss.sum : Int) : ℚ) := by
      exact_mod_cast h1
    rw [Int.cast_natCast] at hq
    linarith
  · rw [div_le_iff₀ hlen]
    have hq : ((ss.sum : Int) : ℚ) ≤ ((ss.length : Int) : ℚ) * ((intListMax ss : Int) : ℚ) := by
      exact_mod_cast h2
    rw [Int.cast_natCast] at hq
    linarith

/-! ### Summary facts -/

theorem mkSummary_facts (d : Str) (ss : List Int) (h : ss ≠ []) :
    (mkSummary d ss).name = d
    ∧ (mkSummary d ss).count = ss.length
    ∧ (mkSummary d ss).minSalary ∈ ss
    ∧ (∀ x ∈ ss, (mkSummary d ss).minSalary ≤ x)
    ∧ (mkSummary d ss).maxSalary ∈ ss
    ∧ (∀ x ∈ ss, x ≤ (mkSummary d ss).maxSalary)
    ∧ (mkSummary d ss).averageSalary = (ss.sum : ℚ) / (ss.length : ℚ)
    ∧ (((mkSummary d ss).minSalary : ℚ)) ≤ (mkSummary d ss).averageSalary
    ∧ (mkSummary d ss).averageSalary ≤ (((mkSummary d ss).maxSalary : ℚ)) := by
  refine ⟨rfl, rfl, intListMin_mem ss h, intListMin_le ss, intListMax_mem ss h,
    intListMax_ge ss, mkSummary_avg d ss, ?_, ?_⟩
  · rw [mkSummary_avg]
    exact (avg_between ss h).1
  · rw [mkSummary_avg]
    exact (avg_between ss h).2

/-! ### Claim theorems -/

/-- C1.  For every valid input (aggregation succeeds) and every department
occurring in the data lines, the produced report has an entry whose `count`
is the number of data lines bearing that department, whose `minSalary` /
`maxSalary` are the extrema of that department's salaries, whose
`averageSalary` is exactly `sum/count` (no rounding), and
`minSalary ≤ averageSalary ≤ maxSalary`. -/
theorem spec_C1 (sep : Str) (lines : List Str) (report : List DeptSummary)
    (hok : generate_report_by_department sep lines = .ok report)
    (d : Str) (hd : ∃ l ∈ dataLines lines, lineDept sep l = some d) :
    ∃ s ∈ report, s.name = d
      ∧ s.count = (linesOfDept sep lines d).length
      ∧ s.minSalary ∈ salariesOfDept sep lines d
      ∧ (∀ x ∈ salariesOfDept sep lines d, s.minSalary ≤ x)
      ∧ s.maxSalary ∈ salariesOfDept sep lines d
      ∧ (∀ x ∈ salariesOfDept sep lines d, x ≤ s.maxSalary)
      ∧ s.averageSalary =
          ((salariesOfDept sep lines d).sum : ℚ) / ((salariesOfDept sep lines d).length : ℚ)
      ∧ ((s.minSalary : ℚ)) ≤ s.averageSalary
      ∧ s.averageSalary ≤ ((s.maxSalary : ℚ)) := by
  obtain ⟨ps, hps, hrep⟩ := generate_report_ok_elim sep lines report hok
  have H := parseAll_ok_forall₂ (parseAggLine sep) (dataLines lines) ps hps
  have hFM := forall₂_agg_filterMap sep (dataLines lines) ps H
  obtain ⟨hsal, hlen⟩ := forall₂_agg_filter sep d (dataLines lines) ps H
  obtain ⟨l, hl, hld⟩ := hd
  have hdmem : d ∈ ps.map Prod.fst := by
    rw [← hFM]
    exact List.mem_filterMap.mpr ⟨l, hl, hld⟩
  have hvne : (ps.filter (fun p => decide (p.1 = d))).map Prod.snd ≠ [] := by
    obtain ⟨p, hp, hp1⟩ := List.mem_map.mp hdmem
    intro hc
    have hmem2 : p.2 ∈ (ps.filter (fun p => decide (p.1 = d))).map Prod.snd :=
      List.mem_map.mpr ⟨p, List.mem_filter.mpr ⟨hp, by simp [hp1]⟩, rfl⟩
    rw [hc] at hmem2
    simp at hmem2
  have hfind : findAssoc (groupPairs ps) d =
      some ((ps.filter (fun p => decide (p.1 = d))).map Prod.snd) := by
    rw [findGroup_groupPairs, if_neg hvne]
  have hmem : (d, (ps.filter (fun p => decide (p.1 = d))).map Prod.snd) ∈ groupPairs ps :=
    findAssoc_mem _ _ _ hfind
  have hSD : salariesOfDept sep lines d = (ps.filter (fun p => decide (p.1 = d))).map Prod.snd :=
    hsal
  have hLD : (linesOfDept sep lines d).length = (ps.filter (fun p => decide (p.1 = d))).length :=
    hlen
  obtain ⟨hn, hc, hmn, hmnle, hmx, hmxge, hav, hb1, hb2⟩ :=
    mkSummary_facts d ((ps.filter (fun p => decide (p.1 = d))).map Prod.snd) hvne
  refine ⟨mkSummary d ((ps.filter (fun p => decide (p.1 = d))).map Prod.snd), ?_, ?_, ?_,
    ?_, ?_, ?_, ?_, ?_, ?_, ?_⟩
  · rw [hrep]
    exact List.mem_map.mpr ⟨(d, (ps.filter (fun p => decide (p.1 = d))).map Prod.snd), hmem, rfl⟩
  · exact hn
  · rw [hc, hLD, List.length_map]
  · rw [hSD]
    exact hmn
  · rw [hSD]
    exact hmnle
  · rw [hSD]
    exact hmx
  · rw [hSD]
    exact hmxge
  · rw [hSD]
    exact hav
  · exact hb1
  · exact hb2

/-- C2.  For every valid input, the report has exactly one entry per distinct
department of the data lines, in first-occurrence order, and no entry has
zero records. -/
theorem spec_C2 (sep : Str) (lines : List Str) (report : List DeptSummary)
    (hok : generate_report_by_department sep lines = .ok report) :
    report.map DeptSummary.name = firstOccurrences ((dataLines lines).filterMap (lineDept sep))
    ∧ (report.map DeptSummary.name).Nodup
    ∧ (∀ d, d ∈ report.map DeptSummary.name ↔ ∃ l ∈ dataLines lines, lineDept sep l = some d)
    ∧ ∀ s ∈ report, 0 < s.count := by
  obtain ⟨ps, hps, hrep⟩ := generate_report_ok_elim sep lines report hok
  have H := parseAll_ok_forall₂ (parseAggLine sep) (dataLines lines) ps hps
  have hFM := forall₂_agg_filterMap sep (dataLines lines) ps H
  have hnames : report.map DeptSummary.name = (groupPairs ps).map Prod.fst := by
    rw [hrep, List.map_map]
    rfl
  have hfo : report.map DeptSummary.name =
      firstOccurrences ((dataLines lines).filterMap (lineDept sep)) := by
    rw [hnames, groupPairs_keys, hFM]
  refine ⟨hfo, ?_, ?_, ?_⟩
  · rw [hfo]
    exact firstOccurrences_nodup _
  · intro d
    rw [hfo, firstOccurrences_mem]
    exact List.mem_filterMap
  · intro s hs
    rw [hrep] at hs
    obtain ⟨g, hg, hgs⟩ := List.mem_map.mp hs
    have hkeys : ((groupPairs ps).map Prod.fst).Nodup := by
      rw [groupPairs_keys]
      exact firstOccurrences_nodup _
    have hfind : findAssoc (groupPairs ps) g.1 = some g.2 :=
      findAssoc_of_mem_nodup _ g.1 g.2 hg hkeys
    rw [findGroup_groupPairs] at hfind
    by_cases hv : ((ps.filter (fun p => decide (p.1 = g.1))).map Prod.snd) = []
    · rw [if_pos hv] at hfind
      cases hfind
    · rw [if_neg hv] at hfind
      have hg2 : g.2 = (ps.filter (fun p => decide (p.1 = g.1))).map Prod.snd :=
        (Option.some.inj hfind).symm
      rw [← hgs]
      show 0 < g.2.length
      rw [hg2]
      exact List.length_pos.mpr hv

/-! ### Witness inputs -/

/-- The separator `';'`. -/
def wSep : Str := [';']

/-- A two-record input with one department. -/
def wLines : List Str :=
  [("id;dept;team;role;level;salary").toList,
   ("1;Eng;Backend;dev;2;1000").toList,
   ("2;Eng;Frontend;dev;2;3000").toList]

/-- The summary report of `wLines`. -/
def wReport : List DeptSummary := [⟨("Eng").toList, 2, 1000, 3000, mkRat 4000 2⟩]

theorem spec_C1_witness :
    (generate_report_by_department wSep wLines = .ok wReport)
    ∧ (∃ l ∈ dataLines wLines, lineDept wSep l = some (("Eng").toList))
    ∧ ∃ s ∈ wReport, s.name = ("Eng").toList
      ∧ s.count = (linesOfDept wSep wLines (("Eng").toList)).length
      ∧ s.minSalary ∈ salariesOfDept wSep wLines (("Eng").toList)
      ∧ (∀ x ∈ salariesOfDept wSep wLines (("Eng").toList), s.minSalary ≤ x)
      ∧ s.maxSalary ∈ salariesOfDept wSep wLines (("Eng").toList)
      ∧ (∀ x ∈ salariesOfDept wSep wLines (("Eng").toList), x ≤ s.maxSalary)
      ∧ s.averageSalary =
          ((salariesOfDept wSep wLines (("Eng").toList)).sum : ℚ) /
            ((salariesOfDept wSep wLines (("Eng").toList)).length : ℚ)
      ∧ ((s.minSalary : ℚ)) ≤ s.averageSalary
      ∧ s.averageSalary ≤ ((s.maxSalary : ℚ)) :=
  ⟨by decide, by decide,
    spec_C1 wSep wLines wReport (by decide) (("Eng").toList) (by decide)⟩

theorem spec_C2_witness :
    (generate_report_by_department wSep wLines = .ok wReport)
    ∧ (wReport.map DeptSummary.name =
          firstOccurrences ((dataLines wLines).filterMap (lineDept wSep))
      ∧ (wReport.map DeptSummary.name).Nodup
      ∧ (∀ d, d ∈ wReport.map DeptSummary.name ↔
          ∃ l ∈ dataLines wLines, lineDept wSep l = some d)
      ∧ ∀ s ∈ wReport, 0 < s.count) :=
  ⟨by decide, spec_C2 wSep wLines wReport (by decide)⟩

/-! ### Hierarchy claims -/

theorem hierarchy_char (sep : Str) (lines : List Str) (h : List (Str × List Str))
    (hok : generate_hierarchy sep lines = .ok h) :
    h.map Prod.fst = firstOccurrences ((dataLines lines).filterMap (lineDept sep))
    ∧ (∀ d, d ∈ h.map Prod.fst ↔ ∃ l ∈ dataLines lines, lineDept sep l = some d)
    ∧ ∀ p ∈ h, p.2.Nodup ∧ ∀ t, t ∈ p.2 ↔
        ∃ l ∈ dataLines lines, lineDept sep l = some p.1 ∧ lineTeam sep l = some t := by
  obtain ⟨ps, hps, hrep⟩ := generate_hierarchy_ok_elim sep lines h hok
  have H := parseAll_ok_forall₂ (parseHierLine sep) (dataLines lines) ps hps
  obtain ⟨hFM, hPairs⟩ := forall₂_hier_facts sep (dataLines lines) ps H
  have hkeys : h.map Prod.fst = firstOccurrences ((dataLines lines).filterMap (lineDept sep)) := by
    rw [hrep, groupTeams_keys, hFM]
  refine ⟨hkeys, ?_, ?_⟩
  · intro d
    rw [hkeys, firstOccurrences_mem]
    exact List.mem_filterMap
  · intro p hp
    rw [hrep] at hp
    have hnodk : ((groupTeams ps).map Prod.fst).Nodup := by
      rw [groupTeams_keys]
      exact firstOccurrences_nodup _
    have hfind : findAssoc (groupTeams ps) p.1 = some p.2 :=
      findAssoc_of_mem_nodup _ p.1 p.2 hp hnodk
    rw [findTeams_groupTeams] at hfind
    by_cases hv : ((ps.filter (fun q => decide (q.1 = p.1))).map Prod.snd) = []
    · rw [if_pos hv] at hfind
      cases hfind
    · rw [if_neg hv] at hfind
      have hp2 : p.2 =
          ((ps.filter (fun q => decide (q.1 = p.1))).map Prod.snd).foldl insertNew [] :=
        (Option.some.inj hfind).symm
      constructor
      · rw [hp2]
        exact foldl_insertNew_nodup _ [] List.nodup_nil
      · intro t
        have hval : t ∈ ((ps.filter (fun q => decide (q.1 = p.1))).map Prod.snd) ↔
            (p.1, t) ∈ ps := by
          constructor
          · intro hm
            obtain ⟨q, hq, hqt⟩ := List.mem_map.mp hm
            have hq' := List.mem_filter.mp hq
            have hq1 : q.1 = p.1 := by simpa using hq'.2
            have hqe : q = (p.1, t) := Prod.ext hq1 hqt
            rw [← hqe]
            exact hq'.1
          · intro hm
            exact List.mem_map.mpr ⟨(p.1, t), List.mem_filter.mpr ⟨hm, by simp⟩, rfl⟩
        calc t ∈ p.2
            ↔ t ∈ ([] : List Str) ∨
                t ∈ ((ps.filter (fun q => decide (q.1 = p.1))).map Prod.snd) := by
              rw [hp2, foldl_insertNew_mem]
          _ ↔ t ∈ ((ps.filter (fun q => decide (q.1 = p.1))).map Prod.snd) := by simp
          _ ↔ (p.1, t) ∈ ps := hval
          _ ↔ _ := hPairs p.1 t

/-- C6.  For every valid input, the keys of the hierarchy are exactly the
distinct department values of the data lines (one entry each), and the
teams of each department are duplicate-free with membership given by the
(department, team) pairs of the input: duplicate pairs collapse. -/
theorem spec_C6 (sep : Str) (lines : List Str) (h : List (Str × List Str))
    (hok : generate_hierarchy sep lines = .ok h) :
    (∀ d, d ∈ h.map Prod.fst ↔ ∃ l ∈ dataLines lines, lineDept sep l = some d)
    ∧ (h.map Prod.fst).Nodup
    ∧ ∀ p ∈ h, p.2.Nodup ∧ ∀ t, t ∈ p.2 ↔
        ∃ l ∈ dataLines lines, lineDept sep l = some p.1 ∧ lineTeam sep l = some t := by
  obtain ⟨hkeys, hmemiff, hteams⟩ := hierarchy_char sep lines h hok
  refine ⟨hmemiff, ?_, hteams⟩
  rw [hkeys]
  exact firstOccurrences_nodup _

/-- C7 counterexample: a team name recorded under two departments appears
under both of them, so a team does not live under exactly one department. -/
def cexLines7 : List Str :=
  [("id;dept;team;x").toList, ("1;D1;T;x").toList, ("2;D2;T;x").toList]

/-- The hierarchy the source builds from `cexLines7`. -/
def cexHier7 : List (Str × List Str) :=
  [(("D1").toList, [("T").toList]), (("D2").toList, [("T").toList])]

/-- C7 (counterexample).  On `cexLines7` the build pass puts team `"T"` into
the team sets of the two distinct departments `"D1"` and `"D2"`: the claim
that every team name appears under exactly one department is false. -/
theorem spec_C7_cex :
    generate_hierarchy wSep cexLines7 = .ok cexHier7
    ∧ (("D1").toList, [("T").toList]) ∈ cexHier7
    ∧ (("D2").toList, [("T").toList]) ∈ cexHier7
    ∧ ("T").toList ∈ [("T").toList]
    ∧ ("D1").toList ≠ ("D2").toList := by decide

/-- C7 (amended).  Duplicate (department, team) pairs collapse: each
department's team set is duplicate-free, and a team name appears under a
department exactly when some data line records that pair — a team recorded
under several departments appears under each of them. -/
theorem spec_C7_amended (sep : Str) (lines : List Str) (h : List (Str × List Str))
    (hok : generate_hierarchy sep lines = .ok h) (d t : Str) :
    ((∃ ts, (d, ts) ∈ h ∧ t ∈ ts) ↔
      ∃ l ∈ dataLines lines, lineDept sep l = some d ∧ lineTeam sep l = some t)
    ∧ ∀ p ∈ h, p.2.Nodup := by
  obtain ⟨hkeys, hmemiff, hteams⟩ := hierarchy_char sep lines h hok
  constructor
  · constructor
    · rintro ⟨ts, hmem, ht⟩
      exact ((hteams (d, ts) hmem).2 t).mp ht
    · rintro ⟨l, hl, hld, hlt⟩
      have hdk : d ∈ h.map Prod.fst := (hmemiff d).mpr ⟨l, hl, hld⟩
      obtain ⟨ts, hfind⟩ := (mem_keys_findAssoc h d).mp hdk
      have hmem := findAssoc_mem h d ts hfind
      exact ⟨ts, hmem, ((hteams (d, ts) hmem).2 t).mpr ⟨l, hl, hld, hlt⟩⟩
  · intro p hp
    exact (hteams p hp).1

/-- A three-record input with a duplicate (department, team) pair. -/
def hLines : List Str :=
  [("id;dept;team;x").toList, ("1;D1;T1;a").toList, ("2;D1;T1;b").toList,
   ("3;D2;T2;c").toList]

/-- The hierarchy of `hLines`. -/
def hOut : List (Str × List Str) :=
  [(("D1").toList, [("T1").toList]), (("D2").toList, [("T2").toList])]

theorem spec_C6_witness :
    (generate_hierarchy wSep hLines = .ok hOut)
    ∧ ((∀ d, d ∈ hOut.map Prod.fst ↔ ∃ l ∈ dataLines hLines, lineDept wSep l = some d)
      ∧ (hOut.map Prod.fst).Nodup
      ∧ ∀ p ∈ hOut, p.2.Nodup ∧ ∀ t, t ∈ p.2 ↔
          ∃ l ∈ dataLines hLines, lineDept wSep l = some p.1 ∧ lineTeam wSep l = some t) :=
  ⟨by decide, spec_C6 wSep hLines hOut (by decide)⟩

theorem spec_C7_witness :
    (generate_hierarchy wSep hLines = .ok hOut)
    ∧ (((∃ ts, (("D1").toList, ts) ∈ hOut ∧ ("T1").toList ∈ ts) ↔
        ∃ l ∈ dataLines hLines, lineDept wSep l = some (("D1").toList)
          ∧ lineTeam wSep l = some (("T1").toList))
      ∧ ∀ p ∈ hOut, p.2.Nodup) :=
  ⟨by decide, spec_C7_amended wSep hLines hOut (by decide) (("D1").toList) (("T1").toList)⟩

/-! ### Error-path claims -/

/-- C8.  In file mode, an input with a malformed data line (fewer than 3
fields, or a non-integer last field) anywhere after the header makes the
run abort with the format error (`ValueError`) before the output file is
opened: the boolean of `runFileMode` says the file was never opened, so no
output file is produced at all. -/
theorem spec_C8 (sep : Str) (lines : List Str)
    (hbad : ∃ l ∈ dataLines lines, aggMalformed sep l) :
    runFileMode sep lines = (false, .error .valueError) := by
  have herr : parseAll (parseAggLine sep) (dataLines lines) = .error .valueError := by
    apply parseAll_agg_error
    obtain ⟨l, hl, hm⟩ := hbad
    exact ⟨l, hl, (parseAggLine_error_iff sep l).mpr hm⟩
  have hgen : generate_report_by_department sep lines = .error .valueError := by
    unfold generate_report_by_department
    rw [herr]
  unfold runFileMode
  rw [hgen]

/-- An input whose single data line has a non-integer salary field. -/
def badLines : List Str :=
  [("id;dept;team;role;level;salary").toList, ("1;Eng;B;abc").toList]

theorem spec_C8_witness :
    (∃ l ∈ dataLines badLines, aggMalformed wSep l)
    ∧ runFileMode wSep badLines = (false, .error .valueError) :=
  ⟨by decide, spec_C8 wSep badLines (by decide)⟩

/-- C9.  Both parsers require at least 3 fields: a 2-field line (which does
have a field at index 1 and a last field) still raises the format error in
aggregation mode, and a line with fewer than 3 fields raises in hierarchy
mode. -/
theorem spec_C9 :
    (∀ (sep l : Str), (pySplit sep l).length = 2 →
      ((pySplit sep l).get? 1).isSome ∧ ((pySplit sep l).getLast?).isSome
        ∧ parseAggLine sep l = .error .valueError)
    ∧ (∀ (sep l : Str), (pySplit sep l).length < 3 →
        parseHierLine sep l = .error .valueError) := by
  constructor
  · intro sep l h2
    rcases hs : pySplit sep l with _ | ⟨a, _ | ⟨b, _ | ⟨c, r⟩⟩⟩
    · rw [hs] at h2
      simp at h2
    · rw [hs] at h2
      simp at h2
    · refine ⟨by simp, by simp, ?_⟩
      unfold parseAggLine
      rw [hs]
    · rw [hs] at h2
      simp at h2
  · intro sep l h3'
    rcases hs : pySplit sep l with _ | ⟨a, _ | ⟨b, _ | ⟨c, r⟩⟩⟩
    · unfold parseHierLine
      rw [hs]
    · unfold parseHierLine
      rw [hs]
    · unfold parseHierLine
      rw [hs]
    · rw [hs] at h3'
      simp at h3'
      omega

theorem spec_C9_witness :
    ((pySplit wSep (("a;5").toList)).length = 2)
    ∧ (((pySplit wSep (("a;5").toList)).get? 1).isSome
      ∧ ((pySplit wSep (("a;5").toList)).getLast?).isSome
      ∧ parseAggLine wSep (("a;5").toList) = .error .valueError)
    ∧ ((pySplit wSep (("b").toList)).length < 3
      ∧ parseHierLine wSep (("b").toList) = .error .valueError) :=
  ⟨by decide, spec_C9.1 wSep (("a;5").toList) (by decide),
    by decide, spec_C9.2 wSep (("b").toList) (by decide)⟩

/-- C10.  Hierarchy mode never reads the salary field: when every data line
has at least 3 fields, hierarchy generation succeeds even if some line's
last field is not an integer, while aggregation mode fails on that same
input with the format error. -/
theorem spec_C10 (sep : Str) (lines : List Str)
    (h3 : ∀ l ∈ dataLines lines, 3 ≤ (pySplit sep l).length) :
    (∃ h, generate_hierarchy sep lines = .ok h)
    ∧ ((∃ l ∈ dataLines lines, lineSalary sep l = none) →
        generate_report_by_department sep lines = .error .valueError) := by
  constructor
  · obtain ⟨ps, hps⟩ := parseAll_ok_of_forall (parseHierLine sep) (dataLines lines)
      (fun l hl => parseHierLine_ok_of_len sep l (h3 l hl))
    refine ⟨groupTeams ps, ?_⟩
    unfold generate_hierarchy
    rw [hps]
  · rintro ⟨l, hl, hs⟩
    have herr := parseAll_agg_error sep (dataLines lines)
      ⟨l, hl, (parseAggLine_error_iff sep l).mpr (Or.inr hs)⟩
    unfold generate_report_by_department
    rw [herr]

theorem spec_C10_witness :
    (∀ l ∈ dataLines badLines, 3 ≤ (pySplit wSep l).length)
    ∧ (∃ h, generate_hierarchy wSep badLines = .ok h)
    ∧ generate_report_by_department wSep badLines = .error .valueError :=
  ⟨by decide, (spec_C10 wSep badLines (by decide)).1,
    (spec_C10 wSep badLines (by decide)).2 (by decide)⟩

/-! ### Rendering claims -/

/-- The separator `";;"`, two characters long. -/
def sepSemiSemi : Str := (";;").toList

/-- A one-department report used by the rendering counterexamples. -/
def cexReport3 : List DeptSummary := [⟨("A").toList, 1, 1000, 3000, 2000⟩]

/-- C3 (counterexample).  With the two-character separator `";;"` the
source's `line[:-1]` strips only one character, not the whole trailing
separator: the written header is not the labels joined by the separator. -/
theorem spec_C3_cex :
    save_department_report cexReport3 sepSemiSemi ≠
      .ok (specJoin sepSemiSemi reportLabels ::
        cexReport3.map (fun s => specJoin sepSemiSemi (summaryFields s))) := by decide

/-- C3 (amended).  For every SINGLE-CHARACTER separator and non-empty
report, the saved file is the header of the four labels joined by the
separator followed by one line per department of its four values joined by
the separator, the range field being the literal `"<min> - <max>"`. -/
theorem spec_C3_amended (c : Char) (report : List DeptSummary) (h : report ≠ []) :
    save_department_report report [c] =
      .ok (specJoin [c] reportLabels :: report.map (fun s => specJoin [c] (summaryFields s)))
    ∧ ∀ s ∈ report, summaryFields s =
        [s.name, natRepr s.count,
         intRepr s.minSalary ++ (" - ").toList ++ intRepr s.maxSalary,
         avgRepr s.averageSalary] := by
  constructor
  · cases report with
    | nil => cases h rfl
    | cons s rest =>
      have hsave : save_department_report (s :: rest) [c] =
          .ok (renderRow reportLabels [c] ::
            (s :: rest).map (fun x => renderRow (summaryFields x) [c])) := rfl
      rw [hsave, renderRow_single c reportLabels (by simp [reportLabels])]
      have hfun : (fun x : DeptSummary => renderRow (summaryFields x) [c]) =
          (fun x => specJoin [c] (summaryFields x)) :=
        funext (fun x => renderRow_single c (summaryFields x) (by simp [summaryFields]))
      rw [hfun]
  · intro s _
    rfl

theorem spec_C3_witness :
    (cexReport3 ≠ [])
    ∧ (save_department_report cexReport3 [';'] =
        .ok (specJoin [';'] reportLabels ::
          cexReport3.map (fun s => specJoin [';'] (summaryFields s)))
      ∧ ∀ s ∈ cexReport3, summaryFields s =
          [s.name, natRepr s.count,
           intRepr s.minSalary ++ (" - ").toList ++ intRepr s.maxSalary,
           avgRepr s.averageSalary]) :=
  ⟨by decide, spec_C3_amended ';' cexReport3 (by decide)⟩

/-- C4 (counterexample).  With the separator `' '` — which occurs inside the
serialized range field `"1000 - 3000"` and inside the header labels —
re-parsing the written lines does not recover the four-field tuples. -/
theorem spec_C4_cex :
    ((save_department_report cexReport3 ([' '] : Str)).toOption.map
        (fun out => out.map (pySplit [' ']))) ≠
      some (reportLabels :: cexReport3.map summaryFields) := by decide

/-- C4 (amended).  For a SINGLE-CHARACTER separator occurring in none of the
four field labels and none of the serialized field values, re-parsing each
written line with that separator recovers the header labels and each
department's four serialized values verbatim. -/
theorem spec_C4_amended (c : Char) (report : List DeptSummary) (hne : report ≠ [])
    (hlab : ∀ f ∈ reportLabels, c ∉ f)
    (hfld : ∀ s ∈ report, ∀ f ∈ summaryFields s, c ∉ f) :
    ∃ out, save_department_report report [c] = .ok out ∧
      out.map (pySplit [c]) = reportLabels :: report.map summaryFields := by
  cases report with
  | nil => cases hne rfl
  | cons s rest =>
    refine ⟨renderRow reportLabels [c] ::
      (s :: rest).map (fun x => renderRow (summaryFields x) [c]), rfl, ?_⟩
    rw [List.map_cons]
    congr 1
    · rw [renderRow_single c reportLabels (by simp [reportLabels])]
      exact pySplit_single_specJoin c reportLabels (by simp [reportLabels]) hlab
    · rw [List.map_map]
      apply List.map_congr_left
      intro x hx
      show pySplit [c] (renderRow (summaryFields x) [c]) = summaryFields x
      rw [renderRow_single c (summaryFields x) (by simp [summaryFields])]
      exact pySplit_single_specJoin c (summaryFields x) (by simp [summaryFields]) (hfld x hx)

theorem spec_C4_witness :
    (cexReport3 ≠ [])
    ∧ (∀ f ∈ reportLabels, ';' ∉ f)
    ∧ (∀ s ∈ cexReport3, ∀ f ∈ summaryFields s, ';' ∉ f)
    ∧ ∃ out, save_department_report cexReport3 [';'] = .ok out ∧
        out.map (pySplit [';']) = reportLabels :: cexReport3.map summaryFields :=
  ⟨by decide, by decide, by decide,
    spec_C4_amended ';' cexReport3 (by decide) (by decide) (by decide)⟩

/-- An input with a header line and no data lines. -/
def hdrOnly : List Str := [("id;dept;team;role;level;salary").toList]

/-- C5 (code evaluation).  On a header-only input the aggregation yields the
empty report; file-mode save then evaluates `departments_list[0]`, raising
`IndexError` — not the `EmptyReportError` the spec mandates — and it does so
only after `open(output_filename, 'w+')` has already truncated the output
file (the boolean `true`).  No header line is written. -/
theorem spec_C5_code :
    runFileMode wSep hdrOnly = (true, .error .indexError)
    ∧ save_department_report [] wSep = .error .indexError := by decide

end Report
